import Mathlib

/-!
# Verification of the SamparkX vector retrieval engine

A shallow embedding of the core retrieval engine of the SamparkX
repository, together with theorems settling the specified properties.

Embedded source files:
* `app/rag/vector_store.py` — the FAISS-backed `VectorStore`
  (`add_documents`, `search`, `save`, `load`);
* `app/rag/ingest.py` — the word-boundary chunker `chunk_text`;
* `app/rag/retrieve.py` — the module-level cached store accessor
  `get_vector_store`.

Modelling conventions:
* Python floats are modelled as `ℚ`; the distance computed by the flat
  L2 index is the squared Euclidean distance, modelled exactly.
* The third-party FAISS flat index (`IndexFlatL2`) is modelled by its
  documented contract: `add` requires a well-formed `(n, d)` matrix
  (a ragged nested list makes the NumPy conversion raise, and a uniform
  row length different from the configured dimension makes the FAISS
  wrapper's assertion fail — both surface as exceptions, modelled as
  `none`); `search` requires a query of the configured dimension and
  `k > 0`, and returns the `k` nearest stored vectors ordered by
  ascending distance.  Tie order among equal distances is realised here
  by a stable sort (the spec leaves it unspecified).  The `-1` padding
  FAISS emits when `k` exceeds the number of stored vectors is not
  modelled; every theorem below only exercises `k ≤ ntotal`.
* Fallible Python code (uncaught exceptions) is modelled with `Option`:
  `none` is an escaping exception.
* The filesystem directory that `save`/`load` use holds the two
  artifacts `index.faiss` and `data.pkl`, modelled by a `StoreDir` with
  one `Option` field per artifact (`none` = file absent).  `save`
  performs two in-place file writes in sequence; the list of directory
  states a concurrent reader could observe is `save_steps`.
-/

namespace SamparkX

/-- An embedding vector: an ordered sequence of numbers (Python
`List[float]`, floats modelled as `ℚ`). -/
abbrev Vec := List ℚ

/-- Squared Euclidean distance, the metric of `faiss.IndexFlatL2`. -/
def sqDist (q v : Vec) : ℚ :=
  (List.zipWith (fun a b => (a - b) ^ 2) q v).sum

/-- Model of `faiss.IndexFlatL2`: a configured dimension `d` and the
stored vectors in insertion order (`vecs.length` is `index.ntotal`). -/
structure IndexFlatL2 where
  d : ℕ
  vecs : List Vec
deriving DecidableEq, Repr

/-- `faiss.IndexFlatL2(dimension)`: a fresh empty index. -/
def mkIndexFlatL2 (d : ℕ) : IndexFlatL2 := ⟨d, []⟩

/-- Model of `np.array(embeddings).astype('float32')` followed by
`index.add(...)`: succeeds exactly when every row has the configured
dimension (a ragged list raises in the NumPy conversion; a uniform row
length `≠ d` fails the FAISS wrapper's shape assertion). -/
def faissAdd (idx : IndexFlatL2) (xs : List Vec) : Option IndexFlatL2 :=
  if xs.all (fun v => v.length = idx.d) then
    some ⟨idx.d, idx.vecs ++ xs⟩
  else
    none

/-- Comparison of (distance, label) pairs by distance, used to model the
ascending-distance order of FAISS search results. -/
def distLE (a b : ℚ × ℕ) : Prop := a.1 ≤ b.1

instance : DecidableRel distLE := fun a b =>
  inferInstanceAs (Decidable (a.1 ≤ b.1))

instance : IsTotal (ℚ × ℕ) distLE := ⟨fun a b => le_total a.1 b.1⟩

instance : IsTrans (ℚ × ℕ) distLE := ⟨fun _ _ _ h h' => le_trans h h'⟩

/-- The (distance, label) pair of every stored vector against query `q`,
in insertion (label) order. -/
def distPairs (q : Vec) (vecs : List Vec) : List (ℚ × ℕ) :=
  (List.range vecs.length).map (fun i => (sqDist q (vecs.getD i []), i))

/-- Model of `index.search(query, k)` on a flat L2 index (single query
row): requires the query to have the configured dimension and `k > 0`
(both asserted by the FAISS wrapper), and returns the `k` nearest
(distance, label) pairs, distances ascending. -/
def faissSearch (idx : IndexFlatL2) (q : Vec) (k : ℕ) : Option (List (ℚ × ℕ)) :=
  if q.length = idx.d ∧ 0 < k then
    some ((List.insertionSort distLE (distPairs q idx.vecs)).take k)
  else
    none

/-- Model of `VectorStore` (`app/rag/vector_store.py`): declared
dimension, FAISS index, and the two parallel lists.  The metadata
payload type `α` is opaque to the store. -/
structure VectorStore (α : Type) where
  dimension : ℕ
  index : IndexFlatL2
  chunks : List String
  metadata : List α
deriving DecidableEq, Repr

/-- `VectorStore.__init__`: fresh store with a declared dimension
(Python default `1536`). -/
def mkVectorStore (α : Type) (d : ℕ) : VectorStore α :=
  ⟨d, mkIndexFlatL2 d, [], []⟩

/-- The alignment invariant of the spec's data model:
`len(chunks) == len(metadata) == index.ntotal`. -/
def aligned {α : Type} (s : VectorStore α) : Prop :=
  s.chunks.length = s.metadata.length ∧
  s.index.vecs.length = s.chunks.length

instance {α : Type} (s : VectorStore α) : Decidable (aligned s) :=
  inferInstanceAs (Decidable (_ ∧ _))

/-- `VectorStore.add_documents`: an empty `embeddings` argument returns
early, touching nothing; otherwise the vectors go to the FAISS index and
`chunks`/`metadata` are extended, with no length validation. -/
def add_documents {α : Type} (s : VectorStore α) (chunks : List String)
    (embeddings : List Vec) (metadata : List α) : Option (VectorStore α) :=
  if embeddings.isEmpty then
    some s
  else
    match faissAdd s.index embeddings with
    | none => none
    | some idx' =>
        some { s with
                index := idx'
                chunks := s.chunks ++ chunks
                metadata := s.metadata ++ metadata }

/-- The result-assembly loop of `VectorStore.search`: for each
(distance, label) pair, if `idx < len(chunks)` the triple
`(chunks[idx], metadata[idx], dist)` is appended; reading
`metadata[idx]` out of range raises (modelled `none`). -/
def collectResults {α : Type} (chunks : List String) (md : List α) :
    List (ℚ × ℕ) → Option (List (String × α × ℚ))
  | [] => some []
  | (dist, i) :: rest =>
      if h : i < chunks.length then
        match md[i]? with
        | none => none
        | some m =>
            (collectResults chunks md rest).map
              (fun r => (chunks.get ⟨i, h⟩, m, dist) :: r)
      else
        collectResults chunks md rest

/-- `VectorStore.search`: empty store short-circuits to `[]`; otherwise
the FAISS index is searched with `min(k, len(chunks))` and the triples
are assembled. -/
def search {α : Type} (s : VectorStore α) (q : Vec) (k : ℕ) :
    Option (List (String × α × ℚ)) :=
  if s.chunks.length = 0 then
    some []
  else
    match faissSearch s.index q (min k s.chunks.length) with
    | none => none
    | some pairs => collectResults s.chunks s.metadata pairs

/-- The on-disk directory used by `save`/`load`: the binary index
artifact `index.faiss` and the structured-data artifact `data.pkl`
(`none` = file absent). -/
structure StoreDir (α : Type) where
  indexFile : Option IndexFlatL2
  dataFile : Option (List String × List α)
deriving DecidableEq, Repr

/-- The complete on-disk snapshot of a store: both artifacts present and
taken from the same in-memory state. -/
def snapshot {α : Type} (s : VectorStore α) : StoreDir α :=
  ⟨some s.index, some (s.chunks, s.metadata)⟩

/-- `VectorStore.save`: writes `index.faiss` then `data.pkl`, both
directly at their final paths. -/
def save {α : Type} (s : VectorStore α) (dir : StoreDir α) : StoreDir α :=
  { dir with
      indexFile := some s.index
      dataFile := some (s.chunks, s.metadata) }

/-- The sequence of directory states observable during
`VectorStore.save`: before any write, after the in-place `write_index`,
and after the in-place pickle dump.  There are no temporary paths and no
renames in the source. -/
def save_steps {α : Type} (s : VectorStore α) (dir : StoreDir α) :
    List (StoreDir α) :=
  [dir,
   { dir with indexFile := some s.index },
   { dir with indexFile := some s.index, dataFile := some (s.chunks, s.metadata) }]

/-- `VectorStore.load`: if either artifact is absent the method returns
with the store untouched; otherwise both artifacts replace the index,
chunks and metadata wholesale (`self.dimension` is not touched). -/
def load {α : Type} (s : VectorStore α) (dir : StoreDir α) : VectorStore α :=
  match dir.indexFile, dir.dataFile with
  | some idx, some d => { s with index := idx, chunks := d.1, metadata := d.2 }
  | _, _ => s

/-- `app/rag/retrieve.py`: the module-level cache `_vector_store`
(`none` before first use) together with `get_vector_store(org_name)`.
`dirs` maps an organization name to its on-disk store directory (`none`
when `os.path.exists(store_path)` is false).  Returns the store handed
to the caller and the new cache contents. -/
def get_vector_store {α : Type} (dirs : String → Option (StoreDir α))
    (org : String) (cached : Option (VectorStore α)) :
    VectorStore α × Option (VectorStore α) :=
  match cached with
  | some vs => (vs, some vs)
  | none =>
      let vs0 := mkVectorStore α 1536
      let vs1 :=
        match dirs org with
        | some dir => load vs0 dir
        | none => vs0
      (vs1, some vs1)

/-! ## The chunker (`app/rag/ingest.py`, `chunk_text`) -/

/-- Python `str.isspace` on the characters `str.split()` separates on. -/
def isPySpace (c : Char) : Bool :=
  c = ' ' || c = '\t' || c = '\n' || c = '\r' || c = '\x0b' || c = '\x0c'

/-- Model of Python `str.split()` (no separator argument): split on runs
of whitespace, discarding empty tokens.  `acc` is the current word,
reversed. -/
def pySplitAux : List Char → List Char → List String
  | [], acc => if acc.isEmpty then [] else [String.mk acc.reverse]
  | c :: cs, acc =>
      if isPySpace c then
        if acc.isEmpty then pySplitAux cs []
        else String.mk acc.reverse :: pySplitAux cs []
      else pySplitAux cs (c :: acc)

/-- Python `text.split()`. -/
def pySplit (text : String) : List String := pySplitAux text.data []

/-- `current_length` of a word list: `sum(len(w) + 1 for w in current_chunk)`. -/
def ccLen (cc : List String) : ℕ := (cc.map (fun w => w.length + 1)).sum

/-- The word-accumulation loop of `chunk_text`, at the word-list level:
`cc` is `current_chunk`, `cl` is `current_length`.  A chunk is emitted
when the running length reaches `chunk_size`; the carried-over suffix
has `int(overlap / (current_length / len(current_chunk)))` words (the
float division is modelled as the exact rational floor
`overlap * len // current_length`; the properties proved below hold for
every carried-suffix size).  Python's `cc[-ow:] if ow > 0 else []` is
`cc.drop (cc.length - ow)` for every `ow : ℕ`. -/
def chunkAux (s o : ℕ) : List String → List String → ℕ → List (List String)
  | [], cc, _ => if cc.isEmpty then [] else [cc]
  | w :: ws, cc, cl =>
      let cc' := cc ++ [w]
      let cl' := cl + w.length + 1
      if s ≤ cl' then
        let ow := o * cc'.length / cl'
        cc' :: chunkAux s o ws (cc'.drop (cc'.length - ow))
          (ccLen (cc'.drop (cc'.length - ow)))
      else
        chunkAux s o ws cc' cl'

/-- The chunks of `chunk_text`, as word lists. -/
def chunkWords (text : String) (chunk_size overlap : ℕ) : List (List String) :=
  chunkAux chunk_size overlap (pySplit text) [] 0

/-- `chunk_text(text, chunk_size, overlap)`: each emitted chunk is
`" ".join(current_chunk)`. -/
def chunk_text (text : String) (chunk_size overlap : ℕ) : List String :=
  (chunkWords text chunk_size overlap).map (String.intercalate " ")

/-- `chunks` is a valid continuation of chunking after carried-over
words `prev`, with `news` the genuinely new words of each chunk: every
chunk is a suffix of its predecessor (the de-duplicable overlap)
followed by its new words. -/
inductive Chained : List String → List (List String) → List (List String) → Prop
  | nil (p : List String) : Chained p [] []
  | cons (p n : List String) (cs ns : List (List String)) (k : ℕ)
      (ht : Chained (p.drop k ++ n) cs ns) :
      Chained p ((p.drop k ++ n) :: cs) (n :: ns)

/-- Like `Chained`, but the head chunk extends the carried words `cc` in
full (no part of `cc` is dropped), matching what the loop produces. -/
inductive ChainedFrom : List String → List (List String) → List (List String) → Prop
  | nil (cc : List String) : ChainedFrom cc [] []
  | cons (cc n : List String) (cs ns : List (List String))
      (ht : Chained (cc ++ n) cs ns) :
      ChainedFrom cc ((cc ++ n) :: cs) (n :: ns)

/-- `c` is a contiguous segment of the word sequence `w` (chunks never
cut through a word: each chunk is a run of whole consecutive words). -/
def segmentOf (c w : List String) : Prop := ∃ a b, w = a ++ c ++ b

/-! ## Concrete stores used by witnesses and counterexamples -/

/-- A one-document store, as produced by ingesting into organization A. -/
def storeA : VectorStore String := ⟨2, ⟨2, [[1, 0]]⟩, ["docA"], ["mA"]⟩

/-- A one-document store, as produced by ingesting into organization B. -/
def storeB : VectorStore String := ⟨2, ⟨2, [[0, 1]]⟩, ["docB"], ["mB"]⟩

/-- On-disk layout with a saved snapshot for each of the organizations
`"A"` and `"B"`. -/
def dirsAB : String → Option (StoreDir String) := fun o =>
  if o = "A" then some (snapshot storeA)
  else if o = "B" then some (snapshot storeB)
  else none

/-- A two-entry aligned store of dimension 2. -/
def store2 : VectorStore String :=
  ⟨2, ⟨2, [[1, 0], [0, 1]]⟩, ["a", "b"], ["m1", "m2"]⟩

/-! ## C10 — `add` with empty embeddings is a silent no-op -/

/-- C10: for every store state, calling `add_documents` with an empty
embeddings sequence returns without error and leaves the whole store
(chunks, metadata and index) unchanged, even when the chunks and
metadata arguments are non-empty: they are silently discarded. -/
theorem add_documents_empty_embeddings_noop {α : Type} (s : VectorStore α)
    (c : List String) (m : List α) : add_documents s c [] m = some s := rfl

/-! ## C2 — mismatched-length `add` arguments are NOT rejected -/

/-- C2 counterexample: an `add_documents` call whose chunks, vectors and
metadata sequences have lengths 1, 1 and 0 is not rejected: it succeeds
and appends the chunk while appending no metadata. -/
theorem add_documents_mismatch_accepted :
    add_documents (mkVectorStore String 2) ["a"] [[1, 0]] [] =
      some ⟨2, ⟨2, [[1, 0]]⟩, ["a"], []⟩ := by decide

/-- C2 amended: a call to `add_documents` whose embeddings are non-empty
and each of the index's dimension succeeds regardless of the lengths of
the chunks and metadata arguments, appending all three sequences in
full; no length equality across the three arguments is checked. -/
theorem add_documents_appends_unchecked {α : Type} (s : VectorStore α)
    (c : List String) (e : List Vec) (m : List α)
    (hne : e ≠ []) (hd : ∀ v ∈ e, v.length = s.index.d) :
    add_documents s c e m =
      some ⟨s.dimension, ⟨s.index.d, s.index.vecs ++ e⟩,
            s.chunks ++ c, s.metadata ++ m⟩ := by
  cases e with
  | nil => exact absurd rfl hne
  | cons v vs =>
      have hall : ((v :: vs).all fun w => decide (w.length = s.index.d)) = true := by
        rw [List.all_eq_true]
        intro x hx
        exact decide_eq_true (hd x hx)
      simp [add_documents, faissAdd, hall]

/-- C2 amended, witness. -/
theorem add_documents_appends_unchecked_witness :
    (([[(1 : ℚ), 0]] : List Vec) ≠ [] ∧
      ∀ v ∈ ([[(1 : ℚ), 0]] : List Vec),
        v.length = (mkVectorStore String 2).index.d) ∧
    add_documents (mkVectorStore String 2) ["a"] [[1, 0]] [] =
      some ⟨2, ⟨2, [[1, 0]]⟩, ["a"], []⟩ :=
  ⟨⟨by decide, by decide⟩,
    add_documents_appends_unchecked (mkVectorStore String 2) ["a"] [[1, 0]] []
      (by decide) (by decide)⟩

/-! ## C7 — wrong-dimension vectors are rejected -/

/-- C7: a call to `add_documents` in which some vector's length differs
from the store's declared dimension fails (the NumPy conversion or the
FAISS shape assertion raises); nothing is truncated, padded or added. -/
theorem add_documents_wrong_dimension_rejected {α : Type} (s : VectorStore α)
    (c : List String) (e : List Vec) (m : List α)
    (hdim : s.index.d = s.dimension)
    (hv : ∃ v ∈ e, v.length ≠ s.dimension) :
    add_documents s c e m = none := by
  obtain ⟨v, hvmem, hvlen⟩ := hv
  cases e with
  | nil => exact absurd hvmem (List.not_mem_nil v)
  | cons w ws =>
      have hall : ((w :: ws).all fun x => decide (x.length = s.index.d)) = false := by
        rw [List.all_eq_false]
        exact ⟨v, hvmem, by simp [hdim, hvlen]⟩
      simp [add_documents, faissAdd, hall]

/-- C7 witness. -/
theorem add_documents_wrong_dimension_rejected_witness :
    ((mkVectorStore String 2).index.d = (mkVectorStore String 2).dimension ∧
      ∃ v ∈ ([[(1 : ℚ), 2, 3]] : List Vec),
        v.length ≠ (mkVectorStore String 2).dimension) ∧
    add_documents (mkVectorStore String 2) ["a"] [[1, 2, 3]] ["m"] = none :=
  ⟨⟨rfl, by decide⟩,
    add_documents_wrong_dimension_rejected (mkVectorStore String 2) ["a"]
      [[1, 2, 3]] ["m"] rfl (by decide)⟩

/-! ## C1 — the alignment invariant -/

/-- C1 counterexample: the freshly constructed store is aligned, but the
operation `add_documents` with mismatched argument lengths (0 chunks,
1 vector, 0 metadata) succeeds and yields a store in which
`len(chunks) = 0` while the index holds one vector: the invariant is not
preserved by every `add` call. -/
theorem alignment_not_preserved_by_every_add :
    aligned (mkVectorStore String 2) ∧
    add_documents (mkVectorStore String 2) [] [[1, 0]] [] =
      some ⟨2, ⟨2, [[1, 0]]⟩, [], []⟩ ∧
    ¬ aligned (⟨2, ⟨2, [[1, 0]]⟩, [], []⟩ : VectorStore String) := by decide

/-- A successful `faissAdd` appends exactly the given rows. -/
theorem faissAdd_eq_some {idx idx' : IndexFlatL2} {xs : List Vec}
    (h : faissAdd idx xs = some idx') : idx' = ⟨idx.d, idx.vecs ++ xs⟩ := by
  unfold faissAdd at h
  split at h
  · exact (Option.some.injEq _ _).mp h |>.symm
  · exact absurd h (by simp)

/-- C1 amended: the alignment invariant
`len(chunks) = len(metadata) = index.ntotal` holds for a freshly
constructed store, is preserved by every `add_documents` call whose
three argument sequences have equal length, and is preserved by a
save/load round trip; an `add` call with mismatched argument lengths can
break it. -/
theorem alignment_invariant_preserved {α : Type} (d : ℕ) (s t : VectorStore α)
    (dir : StoreDir α) (c : List String) (e : List Vec) (m : List α)
    (ha : aligned s) (hc : c.length = e.length) (hm : m.length = e.length) :
    aligned (mkVectorStore α d) ∧
    (∀ s', add_documents s c e m = some s' → aligned s') ∧
    aligned (load t (save s dir)) := by
  refine ⟨⟨rfl, rfl⟩, ?_, ?_⟩
  · intro s' hs'
    cases e with
    | nil =>
        simp only [add_documents, List.isEmpty_nil, if_true, Option.some.injEq] at hs'
        exact hs' ▸ ha
    | cons v vs =>
        simp only [add_documents, List.isEmpty_cons, Bool.false_eq_true,
          if_false] at hs'
        rcases hfa : faissAdd s.index (v :: vs) with _ | idx'
        · rw [hfa] at hs'
          exact absurd hs' (by simp)
        · rw [hfa] at hs'
          have hidx : idx'.vecs = s.index.vecs ++ (v :: vs) := by
            rw [faissAdd_eq_some hfa]
          simp only [Option.some.injEq] at hs'
          subst hs'
          refine ⟨?_, ?_⟩
          · simp only [aligned] at ha ⊢
            simp [ha.1, hc, hm]
          · simp only [aligned] at ha ⊢
            simp [hidx, ha.1, ha.2, hc, hm]
  · have hload : load t (save s dir) =
      ⟨t.dimension, s.index, s.chunks, s.metadata⟩ := rfl
    rw [hload]
    exact ⟨ha.1, ha.2⟩

/-- C1 amended, witness. -/
theorem alignment_invariant_preserved_witness :
    (aligned store2 ∧ (["c"] : List String).length = ([[5, 5]] : List Vec).length ∧
      (["m3"] : List String).length = ([[5, 5]] : List Vec).length) ∧
    (aligned (mkVectorStore String 7) ∧
      (∀ s', add_documents store2 ["c"] [[5, 5]] ["m3"] = some s' → aligned s') ∧
      aligned (load storeA (save store2 (snapshot storeA)))) :=
  ⟨⟨by decide, by decide, by decide⟩,
    alignment_invariant_preserved 7 store2 storeA (snapshot storeA)
      ["c"] [[5, 5]] ["m3"] (by decide) (by decide) (by decide)⟩

/-! ## C6 — `load` with a missing artifact is a no-op -/

/-- C6: if either on-disk artifact is absent, `load` raises no error and
leaves the store's entire in-memory state exactly as it was. -/
theorem load_missing_artifact_noop {α : Type} (s : VectorStore α)
    (dir : StoreDir α)
    (h : dir.indexFile = none ∨ dir.dataFile = none) : load s dir = s := by
  obtain ⟨fi, fd⟩ := dir
  cases fi <;> cases fd <;> first
    | rfl
    | (rcases h with h | h <;> exact absurd h (by simp))

/-- C6 witness. -/
theorem load_missing_artifact_noop_witness :
    ((StoreDir.mk (α := String) none (some (["x"], ["y"]))).indexFile = none ∨
      (StoreDir.mk (α := String) none (some (["x"], ["y"]))).dataFile = none) ∧
    load store2 (StoreDir.mk none (some (["x"], ["y"]))) = store2 :=
  ⟨Or.inl rfl,
    load_missing_artifact_noop store2 (StoreDir.mk none (some (["x"], ["y"])))
      (Or.inl rfl)⟩

/-! ## C3 — save/load round-trip fidelity -/

/-- C3: saving a populated store and loading the result into a fresh
empty store of the same dimension reproduces the identical ordered chunk
list and metadata list, and search over the reloaded store returns
exactly the original store's results for every query and `k`. -/
theorem save_load_roundtrip {α : Type} (s : VectorStore α) (dir : StoreDir α)
    (q : Vec) (k : ℕ) (hpop : s.chunks ≠ []) (hq : q.length = s.dimension) :
    (load (mkVectorStore α s.dimension) (save s dir)).chunks = s.chunks ∧
    (load (mkVectorStore α s.dimension) (save s dir)).metadata = s.metadata ∧
    search (load (mkVectorStore α s.dimension) (save s dir)) q k = search s q k := by
  obtain ⟨d, idx, cs, ms⟩ := s
  exact ⟨rfl, rfl, rfl⟩

/-- C3 witness. -/
theorem save_load_roundtrip_witness :
    (store2.chunks ≠ [] ∧ ([1, 0] : Vec).length = store2.dimension) ∧
    ((load (mkVectorStore String store2.dimension)
        (save store2 (snapshot storeA))).chunks = store2.chunks ∧
      (load (mkVectorStore String store2.dimension)
        (save store2 (snapshot storeA))).metadata = store2.metadata ∧
      search (load (mkVectorStore String store2.dimension)
        (save store2 (snapshot storeA))) [1, 0] 1 = search store2 [1, 0] 1) :=
  ⟨⟨by decide, by decide⟩,
    save_load_roundtrip store2 (snapshot storeA) [1, 0] 1 (by decide) (by decide)⟩

/-! ## C5 — `save` is not atomic across the two artifacts -/

/-- C5 counterexample: saving a grown store over an existing snapshot
exposes an intermediate observable directory state (new `index.faiss`,
old `data.pkl`) that is neither the old complete snapshot nor the new
complete snapshot. -/
theorem save_observable_partial_state :
    ∃ d ∈ save_steps store2 (snapshot storeA),
      d ≠ snapshot storeA ∧ d ≠ snapshot store2 := by decide

/-- C5 amended: `save` writes the two artifacts in place at their final
paths, index first, with no temporary paths or renames; the final state
is the complete new snapshot, but whenever both artifacts change, the
state after the first write is an observable partial write that is
neither the old nor the new complete snapshot. -/
theorem save_not_atomic_two_writes {α : Type} (s : VectorStore α)
    (dir : StoreDir α)
    (hidx : dir.indexFile ≠ some s.index)
    (hdata : dir.dataFile ≠ some (s.chunks, s.metadata)) :
    save s dir = snapshot s ∧
    { dir with indexFile := some s.index } ∈ save_steps s dir ∧
    { dir with indexFile := some s.index } ≠ dir ∧
    { dir with indexFile := some s.index } ≠ snapshot s := by
  refine ⟨rfl, by simp [save_steps], ?_, ?_⟩
  · intro hEq
    exact hidx (by simpa using (congrArg StoreDir.indexFile hEq).symm)
  · intro hEq
    exact hdata (by simpa using congrArg StoreDir.dataFile hEq)

/-- C5 amended, witness. -/
theorem save_not_atomic_two_writes_witness :
    ((snapshot storeA).indexFile ≠ some store2.index ∧
      (snapshot storeA).dataFile ≠ some (store2.chunks, store2.metadata)) ∧
    (save store2 (snapshot storeA) = snapshot store2 ∧
      { snapshot storeA with indexFile := some store2.index } ∈
        save_steps store2 (snapshot storeA) ∧
      { snapshot storeA with indexFile := some store2.index } ≠ snapshot storeA ∧
      { snapshot storeA with indexFile := some store2.index } ≠ snapshot store2) :=
  ⟨⟨by decide, by decide⟩,
    save_not_atomic_two_writes store2 (snapshot storeA) (by decide) (by decide)⟩

/-! ## C9 — the cached store is a process-wide, not per-collection,
singleton -/

/-- C9 counterexample: after a first call for organization `"A"`, the
first call for organization `"B"` does not construct and load `"B"`'s
store: it returns the instance already loaded for `"A"`, which differs
from the store that loading `"B"`'s durable storage yields. -/
theorem get_vector_store_not_per_collection :
    (get_vector_store dirsAB "B" (get_vector_store dirsAB "A" none).2).1 ≠
      load (mkVectorStore String 1536) (snapshot storeB) ∧
    (get_vector_store dirsAB "B" (get_vector_store dirsAB "A" none).2).1 =
      (get_vector_store dirsAB "A" none).1 := by decide

/-- C9 amended: the accessor is a process-wide lazy singleton keyed by
nothing: the first call (for whatever collection name) constructs a
fresh store and loads it from that collection's durable storage if
present, and every subsequent call returns that same instance regardless
of the collection name passed. -/
theorem get_vector_store_process_wide_singleton {α : Type}
    (dirs : String → Option (StoreDir α)) (org org' : String)
    (vs : VectorStore α) (dir : StoreDir α) (h : dirs org = some dir) :
    (get_vector_store dirs org' (some vs)).1 = vs ∧
    (get_vector_store dirs org' ((get_vector_store dirs org none).2)).1 =
      (get_vector_store dirs org none).1 ∧
    (get_vector_store dirs org none).1 = load (mkVectorStore α 1536) dir := by
  refine ⟨rfl, ?_, ?_⟩ <;> simp [get_vector_store, h]

/-- C9 amended, witness. -/
theorem get_vector_store_process_wide_singleton_witness :
    dirsAB "A" = some (snapshot storeA) ∧
    ((get_vector_store dirsAB "B" (some store2)).1 = store2 ∧
      (get_vector_store dirsAB "B" (get_vector_store dirsAB "A" none).2).1 =
        (get_vector_store dirsAB "A" none).1 ∧
      (get_vector_store dirsAB "A" none).1 =
        load (mkVectorStore String 1536) (snapshot storeA)) :=
  ⟨by decide,
    get_vector_store_process_wide_singleton dirsAB "A" "B" store2
      (snapshot storeA) (by decide)⟩

/-! ## C4 — search result count, ordering and distances -/

/-- `distPairs` lists one pair per stored vector. -/
theorem distPairs_length (q : Vec) (vecs : List Vec) :
    (distPairs q vecs).length = vecs.length := by
  simp [distPairs]

/-- Every member of `distPairs` is the distance pair of some stored
vector. -/
theorem mem_distPairs {q : Vec} {vecs : List Vec} {p : ℚ × ℕ}
    (h : p ∈ distPairs q vecs) :
    ∃ i, i < vecs.length ∧ p = (sqDist q (vecs.getD i []), i) := by
  simp only [distPairs, List.mem_map, List.mem_range] at h
  obtain ⟨i, hi, hp⟩ := h
  exact ⟨i, hi, hp.symm⟩

/-- When every label is in range and the metadata list is at least as
long as the chunk list, the result-assembly loop keeps every pair, in
order, and raises nothing. -/
theorem collectResults_eq {α : Type} [Inhabited α] (chunks : List String)
    (md : List α) (pairs : List (ℚ × ℕ))
    (hlen : chunks.length ≤ md.length)
    (hall : ∀ p ∈ pairs, p.2 < chunks.length) :
    collectResults chunks md pairs =
      some (pairs.map (fun p => (chunks.getD p.2 "", md.getI p.2, p.1))) := by
  induction pairs with
  | nil => rfl
  | cons p rest ih =>
      obtain ⟨dist, i⟩ := p
      have hi : i < chunks.length := hall (dist, i) (List.mem_cons_self _ _)
      have him : i < md.length := lt_of_lt_of_le hi hlen
      rw [collectResults, dif_pos hi, List.getElem?_eq_getElem him,
        ih (fun p hp => hall p (List.mem_cons_of_mem _ hp))]
      simp [List.getD_eq_getElem chunks "" hi, List.getI_eq_getElem md him,
        List.getElem?_eq_getElem hi]

/-- C4: on an aligned store, for a query of the declared dimension and
`k ≥ 1`, `search` raises nothing and returns exactly
`min(k, store_size)` triples `(chunk, metadata, distance)`, ordered by
ascending squared Euclidean distance to the stored vectors (the returned
distances are the `min(k, store_size)` smallest, in ascending order),
each triple referring to one stored position `i`; in particular on an
empty store the result is the empty list. -/
theorem search_spec {α : Type} [Inhabited α] (s : VectorStore α) (q : Vec)
    (k : ℕ) (ha : aligned s) (hdim : s.index.d = s.dimension)
    (hq : q.length = s.dimension) (hk : 0 < k) :
    ∃ res, search s q k = some res ∧
      res.length = min k s.chunks.length ∧
      List.Sorted (fun a b => a.2.2 ≤ b.2.2) res ∧
      res.map (fun r => r.2.2) =
        ((List.insertionSort distLE (distPairs q s.index.vecs)).map
          Prod.fst).take (min k s.chunks.length) ∧
      ∀ r ∈ res, ∃ i, i < s.chunks.length ∧
        r = (s.chunks.getD i "", s.metadata.getI i,
             sqDist q (s.index.vecs.getD i [])) := by
  by_cases hsz : s.chunks.length = 0
  · refine ⟨[], ?_, ?_, ?_, ?_, ?_⟩
    · simp [search, hsz]
    · simp [hsz]
    · simp
    · have hv : s.index.vecs.length = 0 := by rw [ha.2, hsz]
      rw [List.eq_nil_of_length_eq_zero hv]
      simp [hsz, distPairs]
    · simp
  · have hkn : 0 < min k s.chunks.length :=
      lt_min hk (Nat.pos_of_ne_zero hsz)
    have hql : q.length = s.index.d := hq.trans hdim.symm
    have hperm : List.Perm (List.insertionSort distLE (distPairs q s.index.vecs))
        (distPairs q s.index.vecs) := List.perm_insertionSort distLE _
    have hslen : (List.insertionSort distLE (distPairs q s.index.vecs)).length =
        s.chunks.length := by
      rw [hperm.length_eq, distPairs_length, ha.2]
    have hfs : faissSearch s.index q (min k s.chunks.length) =
        some ((List.insertionSort distLE
          (distPairs q s.index.vecs)).take (min k s.chunks.length)) := by
      unfold faissSearch
      rw [if_pos ⟨hql, hkn⟩]
    have hall : ∀ p ∈ (List.insertionSort distLE
        (distPairs q s.index.vecs)).take (min k s.chunks.length),
        p.2 < s.chunks.length := by
      intro p hp
      have hmem : p ∈ distPairs q s.index.vecs :=
        hperm.mem_iff.mp (List.mem_of_mem_take hp)
      obtain ⟨i, hi, hpe⟩ := mem_distPairs hmem
      rw [hpe]
      exact ha.2 ▸ hi
    have hcol := collectResults_eq s.chunks s.metadata
      ((List.insertionSort distLE (distPairs q s.index.vecs)).take
        (min k s.chunks.length)) (le_of_eq ha.1) hall
    refine ⟨((List.insertionSort distLE (distPairs q s.index.vecs)).take
        (min k s.chunks.length)).map
        (fun p => (s.chunks.getD p.2 "", s.metadata.getI p.2, p.1)),
      ?_, ?_, ?_, ?_, ?_⟩
    · show search s q k = some _
      unfold search
      rw [if_neg hsz, hfs]
      exact hcol
    · rw [List.length_map, List.length_take, hslen, min_assoc, min_self]
    · have hs1 : List.Sorted distLE
          (List.insertionSort distLE (distPairs q s.index.vecs)) :=
        List.sorted_insertionSort distLE _
      have hs2 : List.Sorted distLE ((List.insertionSort distLE
          (distPairs q s.index.vecs)).take (min k s.chunks.length)) :=
        List.Pairwise.sublist (List.take_sublist _ _) hs1
      show List.Pairwise _ _
      rw [List.pairwise_map]
      exact hs2
    · rw [List.map_map, ← List.map_take]
      rfl
    · intro r hr
      rw [List.mem_map] at hr
      obtain ⟨p, hp, rfl⟩ := hr
      have hmem : p ∈ distPairs q s.index.vecs :=
        hperm.mem_iff.mp (List.mem_of_mem_take hp)
      obtain ⟨i, hi, hpe⟩ := mem_distPairs hmem
      refine ⟨i, ha.2 ▸ hi, ?_⟩
      rw [hpe]

/-- C4 witness. -/
theorem search_spec_witness :
    (aligned store2 ∧ store2.index.d = store2.dimension ∧
      ([1, 0] : Vec).length = store2.dimension ∧ 0 < 1) ∧
    (∃ res, search store2 [1, 0] 1 = some res ∧
      res.length = min 1 store2.chunks.length ∧
      List.Sorted (fun a b => a.2.2 ≤ b.2.2) res ∧
      res.map (fun r => r.2.2) =
        ((List.insertionSort distLE (distPairs [1, 0] store2.index.vecs)).map
          Prod.fst).take (min 1 store2.chunks.length) ∧
      ∀ r ∈ res, ∃ i, i < store2.chunks.length ∧
        r = (store2.chunks.getD i "", store2.metadata.getI i,
             sqDist [1, 0] (store2.index.vecs.getD i []))) :=
  ⟨⟨by decide, rfl, by decide, by decide⟩,
    search_spec store2 [1, 0] 1 (by decide) rfl (by decide) (by decide)⟩

/-! ## C8 — the chunker never splits words and reconstructs the text -/

/-- Non-empty carried words always produce at least one chunk. -/
theorem chunkAux_ne_nil (s o : ℕ) :
    ∀ (ws cc : List String) (cl : ℕ), cc ≠ [] → chunkAux s o ws cc cl ≠ [] := by
  intro ws
  induction ws with
  | nil =>
      intro cc cl hcc
      have : cc.isEmpty = false := by simp [List.isEmpty_iff, hcc]
      simp [chunkAux, this]
  | cons w ws ih =>
      intro cc cl hcc
      simp only [chunkAux]
      by_cases hfl : s ≤ cl + w.length + 1
      · simp [hfl]
      · rw [if_neg hfl]
        exact ih (cc ++ [w]) (cl + w.length + 1) (by simp)

/-- A chain continuing from a suffix of `p` also continues from `p`. -/
theorem Chained.of_drop {p : List String} (j : ℕ)
    {cs ns : List (List String)} (h : Chained (p.drop j) cs ns) :
    Chained p cs ns := by
  generalize hq : p.drop j = q at h
  cases h with
  | nil => exact Chained.nil p
  | cons p' n cs' ns' k ht =>
      rw [← hq] at ht ⊢
      rw [List.drop_drop] at ht ⊢
      exact Chained.cons p n cs' ns' (j + k) ht

/-- A chain whose head extends the carried words in full is in
particular a chain. -/
theorem ChainedFrom.toChained {cc : List String}
    {cs ns : List (List String)} (h : ChainedFrom cc cs ns) :
    Chained cc cs ns := by
  cases h with
  | nil => exact Chained.nil cc
  | cons n cs' ns' ht =>
      have h0 : cc ++ n = cc.drop 0 ++ n := by rw [List.drop_zero]
      rw [h0] at ht ⊢
      exact Chained.cons cc n cs' ns' 0 ht

/-- The accumulation loop decomposes its output into per-chunk new-word
segments: each chunk is the carried suffix of its predecessor followed
by its new words, and the new words concatenate to the remaining input
words. -/
theorem chunkAux_chained (s o : ℕ) :
    ∀ (ws cc : List String) (cl : ℕ),
      ∃ news, ChainedFrom cc (chunkAux s o ws cc cl) news ∧
        news.flatten = ws := by
  intro ws
  induction ws with
  | nil =>
      intro cc cl
      by_cases hcc : cc = []
      · subst hcc
        exact ⟨[], by simp [chunkAux]; exact ChainedFrom.nil [], rfl⟩
      · have hne : cc.isEmpty = false := by simp [List.isEmpty_iff, hcc]
        refine ⟨[[]], ?_, rfl⟩
        simp only [chunkAux, hne, Bool.false_eq_true, if_false]
        have hrw : [cc] = (cc ++ []) :: ([] : List (List String)) := by simp
        rw [hrw]
        exact ChainedFrom.cons cc [] [] [] (Chained.nil _)
  | cons w ws ih =>
      intro cc cl
      simp only [chunkAux]
      by_cases hfl : s ≤ cl + w.length + 1
      · rw [if_pos hfl]
        obtain ⟨news', hcf, hj⟩ := ih
          ((cc ++ [w]).drop ((cc ++ [w]).length - o * (cc ++ [w]).length / (cl + w.length + 1)))
          (ccLen ((cc ++ [w]).drop ((cc ++ [w]).length - o * (cc ++ [w]).length / (cl + w.length + 1))))
        refine ⟨[w] :: news', ?_, by simp [hj]⟩
        have hch : Chained (cc ++ [w])
            (chunkAux s o ws
              ((cc ++ [w]).drop ((cc ++ [w]).length - o * (cc ++ [w]).length / (cl + w.length + 1)))
              (ccLen ((cc ++ [w]).drop ((cc ++ [w]).length - o * (cc ++ [w]).length / (cl + w.length + 1)))))
            news' :=
          Chained.of_drop _ hcf.toChained
        exact ChainedFrom.cons cc [w] _ news' hch
      · rw [if_neg hfl]
        obtain ⟨news', hcf, hj⟩ := ih (cc ++ [w]) (cl + w.length + 1)
        revert hcf
        generalize hg : chunkAux s o ws (cc ++ [w]) (cl + w.length + 1) = rec
        intro hcf
        cases hcf with
        | nil =>
            exact absurd hg
              (chunkAux_ne_nil s o ws (cc ++ [w]) (cl + w.length + 1) (by simp))
        | cons n cs' ns' ht =>
            refine ⟨(w :: n) :: ns', ?_, ?_⟩
            · have hassoc : (cc ++ [w]) ++ n = cc ++ (w :: n) := by simp
              rw [hassoc] at ht ⊢
              exact ChainedFrom.cons cc (w :: n) cs' ns' ht
            · simp only [List.flatten_cons] at hj ⊢
              simp [← hj]


/-- Every chunk the loop emits is a contiguous run of whole words of the
remaining input (prefixed by the carried words). -/
theorem chunkAux_segment (s o : ℕ) :
    ∀ (ws cc : List String) (cl : ℕ),
      ∀ c ∈ chunkAux s o ws cc cl, segmentOf c (cc ++ ws) := by
  intro ws
  induction ws with
  | nil =>
      intro cc cl c hc
      by_cases hcc : cc = []
      · subst hcc
        simp [chunkAux] at hc
      · have hne : cc.isEmpty = false := by simp [List.isEmpty_iff, hcc]
        simp only [chunkAux, hne, Bool.false_eq_true, if_false,
          List.mem_singleton] at hc
        subst hc
        exact ⟨[], [], by simp⟩
  | cons w ws ih =>
      intro cc cl c hc
      simp only [chunkAux] at hc
      by_cases hfl : s ≤ cl + w.length + 1
      · rw [if_pos hfl] at hc
        rcases List.mem_cons.mp hc with hc1 | hc2
        · subst hc1
          exact ⟨[], ws, by simp⟩
        · obtain ⟨a, b, hab⟩ := ih _ _ c hc2
          refine ⟨(cc ++ [w]).take ((cc ++ [w]).length -
            o * (cc ++ [w]).length / (cl + w.length + 1)) ++ a, b, ?_⟩
          have hsplit : cc ++ (w :: ws) = (cc ++ [w]) ++ ws := by simp
          rw [hsplit, ← List.take_append_drop ((cc ++ [w]).length -
            o * (cc ++ [w]).length / (cl + w.length + 1)) (cc ++ [w]),
            List.append_assoc, hab]
          simp [List.append_assoc]
      · rw [if_neg hfl] at hc
        obtain ⟨a, b, hab⟩ := ih (cc ++ [w]) (cl + w.length + 1) c hc
        refine ⟨a, b, ?_⟩
        rw [← hab]
        simp

/-- C8: for every chunk size `s` and overlap `o < s` and every input
text, the chunker yields an empty sequence on empty text; every chunk is
the space-join of a contiguous run of whole words of the text (no split
inside a word); and the chunk word-lists decompose into a carried
overlap (a suffix of the previous chunk's words) plus new words whose
concatenation is exactly the original word sequence — de-duplicating
each chunk's overlapping prefix reconstructs the text's words. -/
theorem chunk_text_spec (s o : ℕ) (ho : o < s) (text : String) :
    chunk_text "" s o = [] ∧
    chunk_text text s o = (chunkWords text s o).map (String.intercalate " ") ∧
    (∀ c ∈ chunkWords text s o, segmentOf c (pySplit text)) ∧
    ∃ news, ChainedFrom [] (chunkWords text s o) news ∧
      news.flatten = pySplit text := by
  refine ⟨rfl, rfl, ?_, ?_⟩
  · intro c hc
    have hseg := chunkAux_segment s o (pySplit text) [] 0 c hc
    simpa using hseg
  · exact chunkAux_chained s o (pySplit text) [] 0

/-- C8 witness. -/
theorem chunk_text_spec_witness :
    3 < 10 ∧
    (chunk_text "" 10 3 = [] ∧
      chunk_text "aa bb cc dd ee ff gg" 10 3 =
        (chunkWords "aa bb cc dd ee ff gg" 10 3).map (String.intercalate " ") ∧
      (∀ c ∈ chunkWords "aa bb cc dd ee ff gg" 10 3,
        segmentOf c (pySplit "aa bb cc dd ee ff gg")) ∧
      ∃ news, ChainedFrom [] (chunkWords "aa bb cc dd ee ff gg" 10 3) news ∧
        news.flatten = pySplit "aa bb cc dd ee ff gg") :=
  ⟨by decide, chunk_text_spec 10 3 (by decide) "aa bb cc dd ee ff gg"⟩

end SamparkX
